import Mathlib

/-!
Shallow embedding of the treap / order-statistics tree family of the
`utility-belt` repository: `CartesianTree` (`src/misc/cartesian_tree.rs`)
and `ImplicitTreap` (`src/misc/implicit_treap.rs`).

The Rust code stores nodes in a `thunderdome::Arena` and passes
`Option<Index>` handles; a handle denotes the subtree hanging off it, so the
embedding replaces `Option<Index>` by an inductive binary tree (`leaf` for
`None`).  Each Rust function is translated field by field; stored `count`
(`size`) fields are modelled verbatim, and the structural node count
(`nodes`) exists only as a proof-side measure.  `u64` priorities and `usize`
counts are modelled as `Nat`; the single place where `usize` underflow can
actually fire (`pop_back` forming `len() - 1`, and the `k - new_left_count - 1`
subtraction inside `remove_by_index`) is modelled explicitly.
-/

namespace UtilityBelt

/-- Mirrors `CTNode` plus the `Option<Index>` handle: `leaf` is `None`,
`node` carries the fields `key`, `value`, `priority`, `left`, `right`,
`count` of `CTNode<K, V>`. -/
inductive CTree (K V : Type) where
  | leaf : CTree K V
  | node (key : K) (value : V) (priority : Nat) (left : CTree K V)
      (right : CTree K V) (count : Nat) : CTree K V
deriving DecidableEq

namespace CTree

variable {K V : Type} [LinearOrder K]

/-- Structural number of nodes (proof-side measure, not stored in the code). -/
def nodes : CTree K V → Nat
  | leaf => 0
  | node _ _ _ l r _ => 1 + nodes l + nodes r

/-- Mirrors `CartesianTree::len`: the root's stored `count`, or 0 if empty. -/
def len : CTree K V → Nat
  | leaf => 0
  | node _ _ _ _ _ c => c

/-- Root priority of a subtree; the code only reads it after checking the
subtree is nonempty (`left.unwrap()` / `right.unwrap()`). -/
def prio : CTree K V → Nat
  | leaf => 0
  | node _ _ p _ _ _ => p

/-- Left child (the code reads `new_root_node.left` of a node known to exist). -/
def leftChild : CTree K V → CTree K V
  | leaf => leaf
  | node _ _ _ l _ _ => l

/-- Mirrors `CartesianTree::search` (used by `get`). -/
def search : CTree K V → K → Option (V × Nat)
  | leaf, _ => none
  | node rk rv rp l r _, k =>
    match compare k rk with
    | .eq => some (rv, rp)
    | .gt => search r k
    | .lt => search l k

/-- Mirrors `CartesianTree::index_of` (used by `index`). -/
def indexOf : CTree K V → K → Option Nat
  | leaf, _ => none
  | node rk _ _ l r _, k =>
    match compare k rk with
    | .eq => some (len l)
    | .gt => (indexOf r k).map (fun i => i + 1 + len l)
    | .lt => indexOf l k

/-- Mirrors `CartesianTree::kth_largest_of` (used by `get_index`). -/
def kthLargestOf : CTree K V → Nat → Option (K × V × Nat)
  | leaf, _ => none
  | node rk rv rp l r _, k =>
    if k = len l then some (rk, rv, rp)
    else if k < len l then kthLargestOf l k
    else kthLargestOf r (k - len l - 1)

/-- Mirrors `CartesianTree::update_count`: recompute the root's stored count
from the children's stored counts. -/
def updateCount : CTree K V → CTree K V
  | leaf => leaf
  | node k v p l r _ => node k v p l r (1 + len l + len r)

/-- Mirrors `CartesianTree::rotate_right`.  The Rust function returns
`None` when the root or its left child is absent; callers either assign the
result back to an `Option` slot or mark that case `unreachable!`, so the
`None` outcome is modelled as `leaf`. -/
def rotateRight : CTree K V → CTree K V
  | node k v p (node lk lv lp ll lr lc) r c =>
      node lk lv lp ll (updateCount (node k v p lr r c)) lc
  | _ => leaf

/-- Mirrors `CartesianTree::rotate_left`, same conventions as `rotateRight`. -/
def rotateLeft : CTree K V → CTree K V
  | node k v p l (node rk rv rp rl rr rc) c =>
      node rk rv rp (updateCount (node k v p l rl c)) rr rc
  | _ => leaf

/-- Mirrors `CartesianTree::insert_kv` (used by `insert`). -/
def insertKV : CTree K V → K → V → Nat → CTree K V
  | leaf, k, v, p => node k v p leaf leaf 1
  | node rk rv rp l r c, k, v, p =>
    match compare k rk with
    | .eq => node rk v rp l r c
    | .lt =>
        let left := insertKV l k v p
        let t1 := node rk rv rp left r c
        updateCount (if prio left > rp then rotateRight t1 else t1)
    | .gt =>
        let right := insertKV r k v p
        let t1 := node rk rv rp l right c
        updateCount (if prio right > rp then rotateLeft t1 else t1)

/-- Mirrors `CartesianTree::remove_key` (used by `remove`).  In the
two-children case the code compares child priorities and, when
`left.priority < right.priority`, calls `rotate_right` (promoting the LEFT
child) and recurses into the new root's right subtree; otherwise
`rotate_left` and the left subtree.  The `unreachable!` arms (rotation of a
node whose required child exists cannot fail) are modelled as `(leaf, none)`. -/
def removeKey : CTree K V → K → CTree K V × Option (V × Nat)
  | leaf, _ => (leaf, none)
  | node rk rv rp l r c, k =>
    match compare k rk with
    | .lt =>
        let p := removeKey l k
        (updateCount (node rk rv rp p.1 r c), p.2)
    | .gt =>
        let p := removeKey r k
        (updateCount (node rk rv rp l p.1 c), p.2)
    | .eq =>
      match l, r with
      | leaf, leaf => (leaf, some (rv, rp))
      | leaf, node qk qv qp ql qr qc => (node qk qv qp ql qr qc, some (rv, rp))
      | node lk lv lp ll lr lc, leaf => (node lk lv lp ll lr lc, some (rv, rp))
      | node lk lv lp ll lr lc, node qk qv qp ql qr qc =>
        if lp < qp then
          match h : rotateRight (node rk rv rp (node lk lv lp ll lr lc)
              (node qk qv qp ql qr qc) c) with
          | leaf => (leaf, none)
          | node nk nv np nl nr nc =>
              let p := removeKey nr k
              (updateCount (node nk nv np nl p.1 nc), p.2)
        else
          match h : rotateLeft (node rk rv rp (node lk lv lp ll lr lc)
              (node qk qv qp ql qr qc) c) with
          | leaf => (leaf, none)
          | node nk nv np nl nr nc =>
              let p := removeKey nl k
              (updateCount (node nk nv np p.1 nr nc), p.2)
termination_by t _ => nodes t
decreasing_by
  · simp only [nodes]; omega
  · simp only [nodes]; omega
  · simp only [rotateRight, updateCount, node.injEq] at h
    obtain ⟨-, -, -, -, hr, -⟩ := h
    subst hr
    simp only [nodes]; omega
  · simp only [rotateLeft, updateCount, node.injEq] at h
    obtain ⟨-, -, -, hl, -, -⟩ := h
    subst hl
    simp only [nodes]; omega

/-- Proof-side component of the termination measure of `removeByIndex`:
1 exactly when `k` equals the left child's stored count (the situation in
which the function may rotate and recurse on a same-size tree). -/
def flagVal (t : CTree K V) (k : Nat) : Nat :=
  if k = len (leftChild t) then 1 else 0

/-- Mirrors `CartesianTree::remove_by_index` (used by `remove_index`).
The Rust code matches on `k.cmp(&left_count)`, written here as the
equivalent comparison chain.  In the two-children case with
`left.priority >= right.priority` the code calls `rotate_right` and then
recurses at the NEW ROOT with `k - new_left_count - 1`; when
`k < new_left_count + 1` that `usize` subtraction underflows (a panic in a
debug build), which cannot happen on count-consistent trees and is modelled
by returning the tree unchanged. -/
def removeByIndex : CTree K V → Nat → CTree K V × Option (K × V × Nat)
  | leaf, _ => (leaf, none)
  | node rk rv rp l r c, k =>
    if k < len l then
      let p := removeByIndex l k
      (updateCount (node rk rv rp p.1 r c), p.2)
    else if len l < k then
      let p := removeByIndex r (k - len l - 1)
      (updateCount (node rk rv rp l p.1 c), p.2)
    else
      match hl : l, hr : r with
      | leaf, leaf => (leaf, some (rk, rv, rp))
      | leaf, node qk qv qp ql qr qc =>
          (node qk qv qp ql qr qc, some (rk, rv, rp))
      | node lk lv lp ll lr lc, leaf =>
          (node lk lv lp ll lr lc, some (rk, rv, rp))
      | node lk lv lp ll lr lc, node qk qv qp ql qr qc =>
        if lp < qp then
          let t1 := rotateLeft (node rk rv rp (node lk lv lp ll lr lc)
              (node qk qv qp ql qr qc) c)
          let p := removeByIndex t1 k
          (updateCount p.1, p.2)
        else
          let t1 := rotateRight (node rk rv rp (node lk lv lp ll lr lc)
              (node qk qv qp ql qr qc) c)
          if k < len (leftChild t1) + 1 then
            (node rk rv rp (node lk lv lp ll lr lc)
              (node qk qv qp ql qr qc) c, none)
          else
            let p := removeByIndex t1 (k - len (leftChild t1) - 1)
            (updateCount p.1, p.2)
termination_by t k => (nodes t, 2 * k + flagVal t k)
decreasing_by
  · apply Prod.Lex.left
    simp only [nodes]; omega
  · apply Prod.Lex.left
    simp only [nodes]; omega
  · refine Prod.lex_def.mpr (Or.inr ⟨?_, ?_⟩)
    · simp only [rotateLeft, updateCount, nodes]; omega
    · subst hl; subst hr
      simp only [flagVal, rotateLeft, updateCount, leftChild, len] at *
      split <;> split <;> omega
  · refine Prod.lex_def.mpr (Or.inr ⟨?_, ?_⟩)
    · simp only [rotateRight, updateCount, nodes]; omega
    · subst hl; subst hr
      simp only [flagVal, rotateRight, updateCount, leftChild, len] at *
      split <;> split <;> omega

/-- Root priority bounded by `p` (trivially true for an absent child). -/
def prioLeB : CTree K V → Nat → Bool
  | leaf, _ => true
  | node _ _ q _ _ _, p => decide (q ≤ p)

/-- Heap invariant of the spec: every node's priority is at least the
priorities of its present children. -/
def heapOk : CTree K V → Bool
  | leaf => true
  | node _ _ p l r _ =>
      heapOk l && heapOk r && prioLeB l p && prioLeB r p

/-- Count invariant of the spec: every stored `count` equals 1 plus the
stored counts of the present children (0 for an absent child). -/
def countOk : CTree K V → Bool
  | leaf => true
  | node _ _ _ l r c =>
      countOk l && countOk r && decide (c = 1 + len l + len r)

/-- Optional strict lower bound check. -/
def lowOk (lo : Option K) (k : K) : Bool :=
  match lo with
  | none => true
  | some a => decide (a < k)

/-- Optional strict upper bound check. -/
def highOk (hi : Option K) (k : K) : Bool :=
  match hi with
  | none => true
  | some b => decide (k < b)

/-- Weakening of `countOk` that allows the root's own stored count to be
stale (the state of a subtree right after a rotation, before the caller's
`update_count`). -/
def subOk : CTree K V → Bool
  | leaf => true
  | node _ _ _ l r _ => countOk l && countOk r

/-- Bounded BST invariant: all keys lie strictly between the optional
bounds, recursively. -/
def boundedB (lo hi : Option K) : CTree K V → Bool
  | leaf => true
  | node k _ _ l r _ =>
      lowOk lo k && highOk hi k && boundedB lo (some k) l && boundedB (some k) hi r

/-- BST invariant of the spec. -/
def bstOk (t : CTree K V) : Bool := boundedB none none t

/-- In-order traversal: list of (key, value, priority) triples. -/
def inorder : CTree K V → List (K × V × Nat)
  | leaf => []
  | node k v p l r _ => inorder l ++ (k, v, p) :: inorder r

/-- Keys in in-order. -/
def keysList (t : CTree K V) : List K := (inorder t).map (fun e => e.1)

/-- Skeleton of a tree: everything except the values (key, priority, shape
and stored counts). -/
def stripValues : CTree K V → CTree K Unit
  | leaf => leaf
  | node k _ p l r c => node k () p (stripValues l) (stripValues r) c

/-- One public mutating operation of `CartesianTree`. -/
inductive COp (K V : Type) where
  | ins (k : K) (v : V) (p : Nat)
  | rem (k : K)
  | remIdx (n : Nat)

/-- Effect of one public operation on the tree (the returned payloads of
`remove` / `remove_index` are dropped). -/
def applyCOp (t : CTree K V) : COp K V → CTree K V
  | .ins k v p => insertKV t k v p
  | .rem k => (removeKey t k).1
  | .remIdx n => (removeByIndex t n).1

/-- Tree observable after a sequence of public operations starting from
`CartesianTree::new()`. -/
def applyCOps (ops : List (COp K V)) : CTree K V :=
  ops.foldl applyCOp leaf

end CTree

/-- The 8-element example tree of the spec: keys `1,2,5,6,10,14,18,19`
inserted with priorities `14,2,6,15,1,14,11,2` (values 0..7). -/
def exTree : CTree Nat Nat :=
  [((1:Nat),(0:Nat),(14:Nat)), (2,1,2), (5,2,6), (6,3,15), (10,4,1), (14,5,14), (18,6,11), (19,7,2)].foldl
    (fun t x => CTree.insertKV t x.1 x.2.1 x.2.2) CTree.leaf

/-- Three-key tree `{1, 3, 4}` with priorities `2, 10, 5`: the smallest
witness of the heap-breaking rotation in `remove`. -/
def cexTree : CTree Nat Nat :=
  CTree.insertKV (CTree.insertKV (CTree.insertKV CTree.leaf 3 0 10) 1 1 2) 4 2 5

/-- Four-key tree `{1, 2, 3, 4}` with priorities `5, 1, 10, 3`: witness of
the wrong-element removal in `remove_index`. -/
def cexTree4 : CTree Nat Nat :=
  CTree.insertKV (CTree.insertKV (CTree.insertKV (CTree.insertKV CTree.leaf 3 30 10) 1 10 5) 2 20 1) 4 40 3

/-- Mirrors `Node<T>` of `implicit_treap.rs` plus the `Option<Index>`
handle: `leaf` is `None`, `node` carries `value`, `priority`, `size`,
`left`, `right`. -/
inductive ITree (T : Type) where
  | leaf : ITree T
  | node (value : T) (priority : Nat) (size : Nat) (left right : ITree T) : ITree T
deriving DecidableEq

namespace ITree

variable {T : Type}

/-- Structural number of nodes (proof-side measure, not stored in the code). -/
def nodes : ITree T → Nat
  | leaf => 0
  | node _ _ _ l r => 1 + nodes l + nodes r

/-- Mirrors `ImplicitTreap::size`: stored size of the root, 0 when absent. -/
def size : ITree T → Nat
  | leaf => 0
  | node _ _ s _ _ => s

/-- Mirrors `ImplicitTreap::len` (= `size(root)`). -/
def len (t : ITree T) : Nat := size t

/-- Mirrors `ImplicitTreap::update_size`. -/
def updateSize : ITree T → ITree T
  | leaf => leaf
  | node v p _ l r => node v p (size l + 1 + size r) l r

/-- Mirrors `ImplicitTreap::find` (1-indexed); returns the value stored at
the node the Rust code returns a handle to. -/
def find? : ITree T → Nat → Option T
  | leaf, _ => none
  | node v _ _ l r, pos =>
    let currentPos := size l + 1
    if pos < currentPos then find? l pos
    else if pos > currentPos then find? r (pos - currentPos)
    else some v

/-- Mirrors `ImplicitTreap::split`. -/
def split : ITree T → Nat → Nat → ITree T × ITree T
  | leaf, _, _ => (leaf, leaf)
  | node v p s l r, pos, add =>
    let currentPos := size l + add
    if currentPos ≤ pos then
      let q := split r pos (currentPos + 1)
      (updateSize (node v p s l q.1), q.2)
    else
      let q := split l pos add
      (q.1, updateSize (node v p s q.2 r))

/-- Mirrors `ImplicitTreap::merge`. -/
def merge : ITree T → ITree T → ITree T
  | leaf, r => r
  | node lv lp ls ll lr, leaf => node lv lp ls ll lr
  | node lv lp ls ll lr, node rv rp rs rl rr =>
    if lp > rp then
      updateSize (node lv lp ls ll (merge lr (node rv rp rs rl rr)))
    else
      updateSize (node rv rp rs (merge (node lv lp ls ll lr) rl) rr)
termination_by l r => nodes l + nodes r
decreasing_by
  · simp only [nodes]; omega
  · simp only [nodes]; omega

/-- Mirrors `ImplicitTreap::insert`; the priority drawn from the random
source is passed in as a parameter. -/
def insertIT (t : ITree T) (pos : Nat) (v : T) (priority : Nat) : ITree T :=
  let singleton := node v priority 1 leaf leaf
  let q := if pos = 0 then (leaf, t) else split t (pos - 1) 0
  merge (merge q.1 singleton) q.2

/-- Root value of a tree (what `arena.remove` hands back in `remove`). -/
def rootValue : ITree T → Option T
  | leaf => none
  | node v _ _ _ _ => some v

/-- Mirrors `ImplicitTreap::remove`: returns the updated tree and the
removed value (if any). -/
def removeIT (t : ITree T) (pos : Nat) : ITree T × Option T :=
  let q := if pos = 0 then (leaf, t) else split t (pos - 1) 0
  let m := split q.2 0 0
  (merge q.1 m.2, rootValue m.1)

/-- Mirrors `ImplicitTreap::push_back` / `push_front`. -/
def pushBack (t : ITree T) (v : T) (priority : Nat) : ITree T :=
  insertIT t (len t) v priority

def pushFront (t : ITree T) (v : T) (priority : Nat) : ITree T :=
  insertIT t 0 v priority

/-- Mirrors `ImplicitTreap::pop_front` (= `remove(0)`). -/
def popFront (t : ITree T) : ITree T × Option T := removeIT t 0

/-- Mirrors `ImplicitTreap::pop_back` (= `self.remove(self.len() - 1)`).
When `len() = 0` the `usize` subtraction `len() - 1` underflows, which is a
panic in a debug build (and wraps to `usize::MAX` in release); the panic is
modelled as `none`. -/
def popBack (t : ITree T) : Option (ITree T × Option T) :=
  if len t = 0 then none
  else some (removeIT t (len t - 1))

/-- Mirrors the `Index` impl: `treap[pos]` = `find(root, pos + 1)`,
panicking (`none` here) when the position is absent. -/
def indexGet (t : ITree T) (pos : Nat) : Option T := find? t (pos + 1)

/-- Mirrors the `IndexMut` impl: navigate exactly like `find` and
overwrite the value of the node found; `none` models the
`expect("index out of bounds")` panic. -/
def setValueAt : ITree T → Nat → T → Option (ITree T)
  | leaf, _, _ => none
  | node v p s l r, pos, nv =>
    let currentPos := size l + 1
    if pos < currentPos then (setValueAt l pos nv).map (fun l1 => node v p s l1 r)
    else if pos > currentPos then
      (setValueAt r (pos - currentPos) nv).map (fun r1 => node v p s l r1)
    else some (node nv p s l r)

/-- Mirrors the `IndexMut` entry point, 0-indexed like `treap[pos] = v`. -/
def indexSet (t : ITree T) (pos : Nat) (v : T) : Option (ITree T) :=
  setValueAt t (pos + 1) v

/-- Size invariant: every stored `size` equals `size(left) + 1 + size(right)`. -/
def sizeOk : ITree T → Bool
  | leaf => true
  | node _ _ s l r => sizeOk l && sizeOk r && decide (s = size l + 1 + size r)

/-- In-order sequence of values represented by the treap. -/
def toList : ITree T → List T
  | leaf => []
  | node v _ _ l r => toList l ++ v :: toList r

end ITree

/-! ## General lemmas about the `CartesianTree` embedding -/

namespace CTree

variable {K V : Type} [LinearOrder K]

@[simp] theorem lowOk_none (k : K) : lowOk (none : Option K) k = true := rfl

@[simp] theorem lowOk_some (a k : K) : lowOk (some a) k = decide (a < k) := rfl

@[simp] theorem highOk_none (k : K) : highOk (none : Option K) k = true := rfl

@[simp] theorem highOk_some (b k : K) : highOk (some b) k = decide (k < b) := rfl

@[simp] theorem boundedB_leaf (lo hi : Option K) : boundedB lo hi (leaf : CTree K V) = true := rfl

theorem lowOk_trans {lo : Option K} {k x : K} (hkx : k < x) (h : lowOk lo k = true) :
    lowOk lo x = true := by
  cases lo with
  | none => rfl
  | some a => simp only [lowOk_some, decide_eq_true_eq] at *; exact lt_trans h hkx

theorem highOk_trans {hi : Option K} {k x : K} (hxk : x < k) (h : highOk hi k = true) :
    highOk hi x = true := by
  cases hi with
  | none => rfl
  | some b => simp only [highOk_some, decide_eq_true_eq] at *; exact lt_trans hxk h

@[simp] theorem inorder_leaf : inorder (leaf : CTree K V) = [] := rfl

@[simp] theorem inorder_node (k : K) (v : V) (p : Nat) (l r : CTree K V) (c : Nat) :
    inorder (node k v p l r c) = inorder l ++ (k, v, p) :: inorder r := rfl

@[simp] theorem keysList_leaf : keysList (leaf : CTree K V) = [] := rfl

@[simp] theorem keysList_node (k : K) (v : V) (p : Nat) (l r : CTree K V) (c : Nat) :
    keysList (node k v p l r c) = keysList l ++ k :: keysList r := by
  simp [keysList]

@[simp] theorem inorder_updateCount (t : CTree K V) : inorder (updateCount t) = inorder t := by
  cases t <;> simp [updateCount]

@[simp] theorem keysList_updateCount (t : CTree K V) : keysList (updateCount t) = keysList t := by
  simp [keysList]

@[simp] theorem boundedB_updateCount (lo hi : Option K) (t : CTree K V) :
    boundedB lo hi (updateCount t) = boundedB lo hi t := by
  cases t <;> simp [updateCount, boundedB]

theorem nodes_eq_length_inorder (t : CTree K V) : nodes t = (inorder t).length := by
  induction t with
  | leaf => simp [nodes]
  | node k v p l r c ihl ihr => simp [nodes, ihl, ihr]; omega

theorem countOk_node {k : K} {v : V} {p : Nat} {l r : CTree K V} {c : Nat}
    (h : countOk (node k v p l r c) = true) :
    countOk l = true ∧ countOk r = true ∧ c = 1 + len l + len r := by
  simp only [countOk, Bool.and_eq_true, decide_eq_true_eq] at h
  exact ⟨h.1.1, h.1.2, h.2⟩

theorem len_eq_length_inorder {t : CTree K V} (h : countOk t = true) :
    len t = (inorder t).length := by
  induction t with
  | leaf => simp [len]
  | node k v p l r c ihl ihr =>
      obtain ⟨hl, hr, hc⟩ := countOk_node h
      simp only [len, inorder_node, List.length_append, List.length_cons]
      rw [hc, ihl hl, ihr hr]
      omega

theorem countOk_updateCount {k : K} {v : V} {p : Nat} {l r : CTree K V} {c : Nat}
    (hl : countOk l = true) (hr : countOk r = true) :
    countOk (updateCount (node k v p l r c)) = true := by
  simp [updateCount, countOk, hl, hr]

theorem mem_keysList_boundedB {lo hi : Option K} {t : CTree K V}
    (h : boundedB lo hi t = true) :
    ∀ x ∈ keysList t, lowOk lo x = true ∧ highOk hi x = true := by
  induction t generalizing lo hi with
  | leaf => simp
  | node k v p l r c ihl ihr =>
      simp only [boundedB, Bool.and_eq_true] at h
      obtain ⟨⟨⟨hlo, hhi⟩, hbl⟩, hbr⟩ := h
      intro x hx
      simp only [keysList_node, List.mem_append, List.mem_cons] at hx
      rcases hx with hx | rfl | hx
      · obtain ⟨h1, h2⟩ := ihl hbl x hx
        simp only [highOk_some, decide_eq_true_eq] at h2
        exact ⟨h1, highOk_trans h2 hhi⟩
      · exact ⟨hlo, hhi⟩
      · obtain ⟨h1, h2⟩ := ihr hbr x hx
        simp only [lowOk_some, decide_eq_true_eq] at h1
        exact ⟨lowOk_trans h1 hlo, h2⟩

theorem sorted_keysList_of_boundedB {lo hi : Option K} {t : CTree K V}
    (h : boundedB lo hi t = true) :
    List.Sorted (· < ·) (keysList t) := by
  induction t generalizing lo hi with
  | leaf => simp
  | node k v p l r c ihl ihr =>
      simp only [boundedB, Bool.and_eq_true] at h
      obtain ⟨⟨⟨hlo, hhi⟩, hbl⟩, hbr⟩ := h
      have sl := ihl hbl
      have sr := ihr hbr
      have memL : ∀ x ∈ keysList l, x < k := by
        intro x hx
        have := (mem_keysList_boundedB hbl x hx).2
        simpa using this
      have memR : ∀ y ∈ keysList r, k < y := by
        intro y hy
        have := (mem_keysList_boundedB hbr y hy).1
        simpa using this
      simp only [keysList_node, List.Sorted, List.pairwise_append, List.pairwise_cons]
      refine ⟨sl, ⟨memR, sr⟩, ?_⟩
      intro x hx y hy
      rcases List.mem_cons.mp hy with rfl | hy
      · exact memL x hx
      · exact lt_trans (memL x hx) (memR y hy)

theorem boundedB_rotateRight {lo hi : Option K} {t : CTree K V}
    (h : boundedB lo hi t = true) :
    boundedB lo hi (rotateRight t) = true := by
  cases t with
  | leaf => simp [rotateRight]
  | node k v p l r c =>
      cases l with
      | leaf => simp [rotateRight]
      | node lk lv lp ll lr lc =>
          simp only [boundedB, Bool.and_eq_true] at h
          obtain ⟨⟨⟨hlo, hhi⟩, ⟨⟨⟨hlo2, hhi2⟩, hbll⟩, hblr⟩⟩, hbr⟩ := h
          have hlk : lk < k := by simpa using hhi2
          simp only [rotateRight, boundedB_updateCount, boundedB, Bool.and_eq_true]
          exact ⟨⟨⟨hlo2, highOk_trans hlk hhi⟩, hbll⟩, ⟨⟨by simpa using hlk, hhi⟩, hblr⟩, hbr⟩

theorem boundedB_rotateLeft {lo hi : Option K} {t : CTree K V}
    (h : boundedB lo hi t = true) :
    boundedB lo hi (rotateLeft t) = true := by
  cases t with
  | leaf => simp [rotateLeft]
  | node k v p l r c =>
      cases r with
      | leaf => simp [rotateLeft]
      | node rk rv rp rl rr rc =>
          simp only [boundedB, Bool.and_eq_true] at h
          obtain ⟨⟨⟨hlo, hhi⟩, hbl⟩, ⟨⟨⟨hlo2, hhi2⟩, hbrl⟩, hbrr⟩⟩ := h
          have hrk : k < rk := by simpa using hlo2
          simp only [rotateLeft, boundedB_updateCount, boundedB, Bool.and_eq_true]
          exact ⟨⟨⟨lowOk_trans hrk hlo, hhi2⟩, ⟨⟨hlo, by simpa using hrk⟩, hbl⟩, hbrl⟩, hbrr⟩

theorem boundedB_insertKV {lo hi : Option K} {t : CTree K V} {k : K} {v : V} {p : Nat}
    (h : boundedB lo hi t = true) (hlo : lowOk lo k = true) (hhi : highOk hi k = true) :
    boundedB lo hi (insertKV t k v p) = true := by
  induction t generalizing lo hi with
  | leaf => simp [insertKV, boundedB, hlo, hhi]
  | node rk rv rp l r c ihl ihr =>
      simp only [boundedB, Bool.and_eq_true] at h
      obtain ⟨⟨⟨h1, h2⟩, hbl⟩, hbr⟩ := h
      rcases lt_trichotomy k rk with hk | hk | hk
      · have hcmp : compare k rk = Ordering.lt := compare_lt_iff_lt.mpr hk
        have hbl2 := ihl hbl hlo (by simpa using hk)
        have hstep : boundedB lo hi (node rk rv rp (insertKV l k v p) r c) = true := by
          simp only [boundedB, Bool.and_eq_true]
          exact ⟨⟨⟨h1, h2⟩, hbl2⟩, hbr⟩
        simp only [insertKV, hcmp, boundedB_updateCount]
        split
        · exact boundedB_rotateRight hstep
        · exact hstep
      · have hcmp : compare k rk = Ordering.eq := compare_eq_iff_eq.mpr hk
        simp only [insertKV, hcmp, boundedB, Bool.and_eq_true]
        exact ⟨⟨⟨h1, h2⟩, hbl⟩, hbr⟩
      · have hcmp : compare k rk = Ordering.gt := compare_gt_iff_gt.mpr hk
        have hbr2 := ihr hbr (by simpa using hk) hhi
        have hstep : boundedB lo hi (node rk rv rp l (insertKV r k v p) c) = true := by
          simp only [boundedB, Bool.and_eq_true]
          exact ⟨⟨⟨h1, h2⟩, hbl⟩, hbr2⟩
        simp only [insertKV, hcmp, boundedB_updateCount]
        split
        · exact boundedB_rotateLeft hstep
        · exact hstep

theorem countOk_updateCount_rotateRight {rk : K} {rv : V} {rp : Nat} {l r : CTree K V} {c : Nat}
    (hl : countOk l = true) (hr : countOk r = true) :
    countOk (updateCount (rotateRight (node rk rv rp l r c))) = true := by
  cases l with
  | leaf => simp [rotateRight, updateCount, countOk]
  | node lk lv lp ll lr lc =>
      obtain ⟨hll, hlr, hlc⟩ := countOk_node hl
      simp [rotateRight, updateCount, countOk, len, hll, hlr, hr]

theorem countOk_updateCount_rotateLeft {rk : K} {rv : V} {rp : Nat} {l r : CTree K V} {c : Nat}
    (hl : countOk l = true) (hr : countOk r = true) :
    countOk (updateCount (rotateLeft (node rk rv rp l r c))) = true := by
  cases r with
  | leaf => simp [rotateLeft, updateCount, countOk]
  | node qk qv qp ql qr qc =>
      obtain ⟨hql, hqr, hqc⟩ := countOk_node hr
      simp [rotateLeft, updateCount, countOk, len, hql, hqr, hl]

theorem countOk_insertKV {t : CTree K V} {k : K} {v : V} {p : Nat}
    (h : countOk t = true) :
    countOk (insertKV t k v p) = true := by
  induction t with
  | leaf => simp [insertKV, countOk, len]
  | node rk rv rp l r c ihl ihr =>
      obtain ⟨hl, hr, hc⟩ := countOk_node h
      rcases lt_trichotomy k rk with hk | hk | hk
      · have hcmp : compare k rk = Ordering.lt := compare_lt_iff_lt.mpr hk
        simp only [insertKV, hcmp]
        split
        · exact countOk_updateCount_rotateRight (ihl hl) hr
        · exact countOk_updateCount (ihl hl) hr
      · have hcmp : compare k rk = Ordering.eq := compare_eq_iff_eq.mpr hk
        simp only [insertKV, hcmp]
        simp [countOk, hl, hr, hc]
      · have hcmp : compare k rk = Ordering.gt := compare_gt_iff_gt.mpr hk
        simp only [insertKV, hcmp]
        split
        · exact countOk_updateCount_rotateLeft hl (ihr hr)
        · exact countOk_updateCount hl (ihr hr)

theorem removeKey_lt {rk : K} {rv : V} {rp : Nat} {l r : CTree K V} {c : Nat} {k : K}
    (hcmp : compare k rk = Ordering.lt) :
    removeKey (node rk rv rp l r c) k =
      (updateCount (node rk rv rp (removeKey l k).1 r c), (removeKey l k).2) := by
  cases l <;> cases r <;> simp only [removeKey, hcmp]

theorem removeKey_gt {rk : K} {rv : V} {rp : Nat} {l r : CTree K V} {c : Nat} {k : K}
    (hcmp : compare k rk = Ordering.gt) :
    removeKey (node rk rv rp l r c) k =
      (updateCount (node rk rv rp l (removeKey r k).1 c), (removeKey r k).2) := by
  cases l <;> cases r <;> simp only [removeKey, hcmp]

theorem removeByIndex_lt {rk : K} {rv : V} {rp : Nat} {l r : CTree K V} {c k : Nat}
    (hlt : k < len l) :
    removeByIndex (node rk rv rp l r c) k =
      (updateCount (node rk rv rp (removeByIndex l k).1 r c), (removeByIndex l k).2) := by
  cases l <;> cases r <;> simp only [removeByIndex, if_pos hlt]

theorem removeByIndex_gt {rk : K} {rv : V} {rp : Nat} {l r : CTree K V} {c k : Nat}
    (h1 : ¬ k < len l) (h2 : len l < k) :
    removeByIndex (node rk rv rp l r c) k =
      (updateCount (node rk rv rp l (removeByIndex r (k - len l - 1)).1 c),
        (removeByIndex r (k - len l - 1)).2) := by
  cases l <;> cases r <;> simp only [removeByIndex, if_neg h1, if_pos h2]

theorem countOk_removeKey (t : CTree K V) (k : K) (h : countOk t = true) :
    countOk (removeKey t k).1 = true := by
  induction t, k using removeKey.induct with
  | case1 k => simpa [removeKey] using h
  | case2 rk rv rp l r c k hcmp ih =>
      obtain ⟨hl, hr, hc⟩ := countOk_node h
      simp only [removeKey_lt hcmp]
      exact countOk_updateCount (ih hl) hr
  | case3 rk rv rp l r c k hcmp ih =>
      obtain ⟨hl, hr, hc⟩ := countOk_node h
      simp only [removeKey_gt hcmp]
      exact countOk_updateCount hl (ih hr)
  | case4 rk rv rp c k hcmp =>
      simp [removeKey, hcmp, countOk]
  | case5 rk rv rp c k hcmp qk qv qp ql qr qc =>
      obtain ⟨hl, hr, hc⟩ := countOk_node h
      simpa [removeKey, hcmp] using hr
  | case6 rk rv rp c k hcmp lk lv lp ll lr lc =>
      obtain ⟨hl, hr, hc⟩ := countOk_node h
      simpa [removeKey, hcmp] using hl
  | case7 rk rv rp c k hcmp lk lv lp ll lr lc qk qv qp ql qr qc hpq hrot =>
      exact absurd hrot (by simp [rotateRight])
  | case8 rk rv rp c k hcmp lk lv lp ll lr lc qk qv qp ql qr qc hpq nk nv np nl nr nc hrot ih =>
      obtain ⟨hl, hr, hc⟩ := countOk_node h
      obtain ⟨hll, hlr, hlc⟩ := countOk_node hl
      simp only [rotateRight, node.injEq] at hrot
      obtain ⟨hk1, hv1, hp1, hl1, hr1, hc1⟩ := hrot
      subst hk1; subst hv1; subst hp1; subst hl1; subst hr1; subst hc1
      have hnr : countOk (updateCount (node rk rv rp lr (node qk qv qp ql qr qc) c)) = true :=
        countOk_updateCount hlr hr
      simp only [removeKey, hcmp, if_pos hpq, rotateRight]
      exact countOk_updateCount hll (ih hnr)
  | case9 rk rv rp c k hcmp lk lv lp ll lr lc qk qv qp ql qr qc hpq hrot =>
      exact absurd hrot (by simp [rotateLeft])
  | case10 rk rv rp c k hcmp lk lv lp ll lr lc qk qv qp ql qr qc hpq nk nv np nl nr nc hrot ih =>
      obtain ⟨hl, hr, hc⟩ := countOk_node h
      obtain ⟨hql, hqr, hqc⟩ := countOk_node hr
      simp only [rotateLeft, node.injEq] at hrot
      obtain ⟨hk1, hv1, hp1, hl1, hr1, hc1⟩ := hrot
      subst hk1; subst hv1; subst hp1; subst hl1; subst hr1; subst hc1
      have hnl : countOk (updateCount (node rk rv rp (node lk lv lp ll lr lc) ql c)) = true :=
        countOk_updateCount hl hql
      simp only [removeKey, hcmp, if_neg hpq, rotateLeft]
      exact countOk_updateCount (ih hnl) hqr

theorem subOk_of_countOk {t : CTree K V} (h : countOk t = true) : subOk t = true := by
  cases t with
  | leaf => rfl
  | node k v p l r c =>
      obtain ⟨hl, hr, hc⟩ := countOk_node h
      simp [subOk, hl, hr]

theorem updateCount_eq_self {t : CTree K V} (h : countOk t = true) : updateCount t = t := by
  cases t with
  | leaf => rfl
  | node k v p l r c =>
      obtain ⟨hl, hr, hc⟩ := countOk_node h
      simp [updateCount, ← hc]

theorem countOk_removeByIndex_sub (t : CTree K V) (k : Nat) (h : subOk t = true) :
    countOk (removeByIndex t k).1 = true := by
  induction t, k using removeByIndex.induct with
  | case1 k => simp [removeByIndex, countOk]
  | case2 rk rv rp l r c k hlt ih =>
      simp only [subOk, Bool.and_eq_true] at h
      obtain ⟨hl, hr⟩ := h
      simp only [removeByIndex_lt hlt]
      exact countOk_updateCount (ih (subOk_of_countOk hl)) hr
  | case3 rk rv rp l r c k hnlt hgt ih =>
      simp only [subOk, Bool.and_eq_true] at h
      obtain ⟨hl, hr⟩ := h
      simp only [removeByIndex_gt hnlt hgt]
      exact countOk_updateCount hl (ih (subOk_of_countOk hr))
  | case4 rk rv rp c k h1 h2 =>
      simp [removeByIndex, if_neg h1, if_neg h2, countOk]
  | case5 rk rv rp c k qk qv qp ql qr qc h1 h2 =>
      simp only [subOk, Bool.and_eq_true] at h
      simpa [removeByIndex, if_neg h1, if_neg h2] using h.2
  | case6 rk rv rp c k lk lv lp ll lr lc h1 h2 =>
      simp only [subOk, Bool.and_eq_true] at h
      simpa [removeByIndex, if_neg h1, if_neg h2] using h.1
  | case7 rk rv rp c k lk lv lp ll lr lc qk qv qp ql qr qc hpq t1 h1 h2 ih =>
      simp only [subOk, Bool.and_eq_true] at h
      obtain ⟨hl, hr⟩ := h
      obtain ⟨hql, hqr, hqc⟩ := countOk_node hr
      have ht1 : subOk t1 = true := by
        show subOk (rotateLeft (node rk rv rp (node lk lv lp ll lr lc)
          (node qk qv qp ql qr qc) c) : CTree K V) = true
        simp only [rotateLeft, subOk, Bool.and_eq_true]
        exact ⟨countOk_updateCount hl hql, hqr⟩
      have hres := ih ht1
      simp only [removeByIndex, if_neg h1, if_neg h2, if_pos hpq]
      show countOk (updateCount (removeByIndex t1 k).1) = true
      rw [updateCount_eq_self hres]
      exact hres
  | case8 rk rv rp c k lk lv lp ll lr lc qk qv qp ql qr qc hpq t1 hguard h1 h2 =>
      simp only [subOk, Bool.and_eq_true] at h
      obtain ⟨hl, hr⟩ := h
      obtain ⟨hll, hlr, hlc⟩ := countOk_node hl
      have hguard2 : k < len (leftChild (rotateRight (node rk rv rp
          (node lk lv lp ll lr lc) (node qk qv qp ql qr qc) c))) + 1 := hguard
      clear hguard
      simp only [rotateRight, leftChild] at hguard2
      simp only [len] at h1 h2
      omega
  | case9 rk rv rp c k lk lv lp ll lr lc qk qv qp ql qr qc hpq t1 hguard h1 h2 ih =>
      simp only [subOk, Bool.and_eq_true] at h
      obtain ⟨hl, hr⟩ := h
      obtain ⟨hll, hlr, hlc⟩ := countOk_node hl
      have ht1 : subOk t1 = true := by
        show subOk (rotateRight (node rk rv rp (node lk lv lp ll lr lc)
          (node qk qv qp ql qr qc) c) : CTree K V) = true
        simp only [rotateRight, subOk, Bool.and_eq_true]
        exact ⟨hll, countOk_updateCount hlr hr⟩
      have hres := ih ht1
      simp only [removeByIndex, if_neg h1, if_neg h2, if_neg hpq, if_neg hguard]
      show countOk (updateCount (removeByIndex t1 (k - len (leftChild t1) - 1)).1) = true
      rw [updateCount_eq_self hres]
      exact hres

theorem countOk_removeByIndex (t : CTree K V) (k : Nat) (h : countOk t = true) :
    countOk (removeByIndex t k).1 = true :=
  countOk_removeByIndex_sub t k (subOk_of_countOk h)

theorem countOk_applyCOp {t : CTree K V} (h : countOk t = true) (op : COp K V) :
    countOk (applyCOp t op) = true := by
  cases op with
  | ins k v p => exact countOk_insertKV h
  | rem k => exact countOk_removeKey t k h
  | remIdx n => exact countOk_removeByIndex t n h

theorem countOk_applyCOps (ops : List (COp K V)) : countOk (applyCOps ops) = true := by
  suffices hgen : ∀ (t : CTree K V), countOk t = true → countOk (ops.foldl applyCOp t) = true by
    exact hgen leaf rfl
  induction ops with
  | nil => intro t h; simpa using h
  | cons op ops ih =>
      intro t h
      exact ih (applyCOp t op) (countOk_applyCOp h op)

theorem heapOk_node {k : K} {v : V} {p : Nat} {l r : CTree K V} {c : Nat}
    (h : heapOk (node k v p l r c) = true) :
    heapOk l = true ∧ heapOk r = true ∧ prioLeB l p = true ∧ prioLeB r p = true := by
  simp only [heapOk, Bool.and_eq_true] at h
  exact ⟨h.1.1.1, h.1.1.2, h.1.2, h.2⟩

theorem prio_le_of_prioLeB {t : CTree K V} {p : Nat} (h : prioLeB t p = true) :
    prio t ≤ p := by
  cases t with
  | leaf => exact Nat.zero_le p
  | node k v q l r c => simpa [prioLeB, prio] using h

@[simp] theorem prio_stripValues (t : CTree K V) : prio (stripValues t) = prio t := by
  cases t <;> rfl

@[simp] theorem len_stripValues (t : CTree K V) : len (stripValues t) = len t := by
  cases t <;> rfl

/-- Frame effect of inserting an already-present key: only the value
changes; keys, priorities, shape and counts (the `stripValues` skeleton)
stay exactly the same, and a subsequent `get` reports the new value with
the ORIGINAL priority. -/
theorem insertKV_found {t : CTree K V} {k : K} {v0 : V} {p0 : Nat} (v : V) (p : Nat)
    (hheap : heapOk t = true) (hcount : countOk t = true)
    (hs : search t k = some (v0, p0)) :
    stripValues (insertKV t k v p) = stripValues t ∧
      search (insertKV t k v p) k = some (v, p0) := by
  induction t with
  | leaf => simp [search] at hs
  | node rk rv rp l r c ihl ihr =>
      obtain ⟨hc1, hc2, hc3⟩ := countOk_node hcount
      obtain ⟨hh1, hh2, hh3, hh4⟩ := heapOk_node hheap
      rcases lt_trichotomy k rk with hk | hk | hk
      · have hcmp : compare k rk = Ordering.lt := compare_lt_iff_lt.mpr hk
        simp only [search, hcmp] at hs
        obtain ⟨ihstrip, ihsearch⟩ := ihl hh1 hc1 hs
        have hprio : prio (insertKV l k v p) = prio l := by
          have := congrArg prio ihstrip
          simpa using this
        have hlen : len (insertKV l k v p) = len l := by
          have := congrArg len ihstrip
          simpa using this
        have hnorot : ¬ prio (insertKV l k v p) > rp := by
          rw [hprio]
          exact not_lt.mpr (prio_le_of_prioLeB hh3)
        simp only [insertKV, hcmp, if_neg hnorot]
        constructor
        · simp only [updateCount, stripValues]
          rw [ihstrip, hlen, ← hc3]
        · simp only [updateCount, search, hcmp]
          exact ihsearch
      · have hcmp : compare k rk = Ordering.eq := compare_eq_iff_eq.mpr hk
        simp only [search, hcmp, Option.some_inj, Prod.mk.injEq] at hs
        simp only [insertKV, hcmp]
        refine ⟨rfl, ?_⟩
        simp [search, hcmp, hs.2]
      · have hcmp : compare k rk = Ordering.gt := compare_gt_iff_gt.mpr hk
        simp only [search, hcmp] at hs
        obtain ⟨ihstrip, ihsearch⟩ := ihr hh2 hc2 hs
        have hprio : prio (insertKV r k v p) = prio r := by
          have := congrArg prio ihstrip
          simpa using this
        have hlen : len (insertKV r k v p) = len r := by
          have := congrArg len ihstrip
          simpa using this
        have hnorot : ¬ prio (insertKV r k v p) > rp := by
          rw [hprio]
          exact not_lt.mpr (prio_le_of_prioLeB hh4)
        simp only [insertKV, hcmp, if_neg hnorot]
        constructor
        · simp only [updateCount, stripValues]
          rw [ihstrip, hlen, ← hc3]
        · simp only [updateCount, search, hcmp]
          exact ihsearch

/-- An absent key (`search` returns `None`) makes `index_of` return `None`
as well: both walk the same comparison path. -/
theorem indexOf_eq_none {t : CTree K V} {k : K} (hs : search t k = none) :
    indexOf t k = none := by
  induction t with
  | leaf => rfl
  | node rk rv rp l r c ihl ihr =>
      rcases lt_trichotomy k rk with hk | hk | hk
      · have hcmp : compare k rk = Ordering.lt := compare_lt_iff_lt.mpr hk
        simp only [search, hcmp] at hs
        simp only [indexOf, hcmp]
        exact ihl hs
      · have hcmp : compare k rk = Ordering.eq := compare_eq_iff_eq.mpr hk
        simp [search, hcmp] at hs
      · have hcmp : compare k rk = Ordering.gt := compare_gt_iff_gt.mpr hk
        simp only [search, hcmp] at hs
        simp only [indexOf, hcmp, ihr hs]
        rfl

/-- Removing an absent key returns `None` and leaves the tree unchanged
(stored counts are recomputed along the path, to identical values). -/
theorem removeKey_absent {t : CTree K V} {k : K} (hc : countOk t = true)
    (hs : search t k = none) :
    removeKey t k = (t, none) := by
  induction t with
  | leaf => simp [removeKey]
  | node rk rv rp l r c ihl ihr =>
      obtain ⟨hc1, hc2, hc3⟩ := countOk_node hc
      rcases lt_trichotomy k rk with hk | hk | hk
      · have hcmp : compare k rk = Ordering.lt := compare_lt_iff_lt.mpr hk
        simp only [search, hcmp] at hs
        simp only [removeKey_lt hcmp, ihl hc1 hs]
        simp [updateCount, ← hc3]
      · have hcmp : compare k rk = Ordering.eq := compare_eq_iff_eq.mpr hk
        simp [search, hcmp] at hs
      · have hcmp : compare k rk = Ordering.gt := compare_gt_iff_gt.mpr hk
        simp only [search, hcmp] at hs
        simp only [removeKey_gt hcmp, ihr hc2 hs]
        simp [updateCount, ← hc3]

/-- Select with an out-of-range rank returns `None`. -/
theorem kthLargestOf_none {t : CTree K V} {r : Nat} (hc : countOk t = true)
    (hr : len t ≤ r) :
    kthLargestOf t r = none := by
  induction t generalizing r with
  | leaf => rfl
  | node rk rv rp l rt c ihl ihr =>
      obtain ⟨hc1, hc2, hc3⟩ := countOk_node hc
      simp only [len] at hr
      have h1 : ¬ r = len l := by omega
      have h2 : ¬ r < len l := by omega
      simp only [kthLargestOf, if_neg h1, if_neg h2]
      exact ihr hc2 (by omega)

/-- Select: with consistent counts, `kth_largest_of` returns exactly the
`r`-th entry of the in-order traversal. -/
theorem kthLargestOf_eq_getElem {t : CTree K V} (hc : countOk t = true) (r : Nat) :
    kthLargestOf t r = (inorder t)[r]? := by
  induction t generalizing r with
  | leaf => simp [kthLargestOf]
  | node rk rv rp l rt c ihl ihr =>
      obtain ⟨hc1, hc2, hc3⟩ := countOk_node hc
      have hlen : len l = (inorder l).length := len_eq_length_inorder hc1
      by_cases h1 : r = len l
      · subst h1
        have hrhs : (inorder (node rk rv rp l rt c))[len l]? = some (rk, rv, rp) := by
          simp only [inorder_node]
          rw [List.getElem?_append_right (by omega)]
          rw [show len l - (inorder l).length = 0 from by omega]
          simp
        rw [hrhs]
        simp [kthLargestOf]
      · by_cases h2 : r < len l
        · simp only [kthLargestOf, if_neg h1, if_pos h2, inorder_node]
          rw [List.getElem?_append_left (by omega), ihl hc1]
        · simp only [kthLargestOf, if_neg h1, if_neg h2, inorder_node]
          rw [List.getElem?_append_right (by omega), ihr hc2]
          have hsub : r - (inorder l).length = (r - len l - 1) + 1 := by omega
          rw [hsub]
          simp

/-- Rank: with the BST invariant and consistent counts, `index_of` returns
`r` exactly when the `r`-th key of the in-order traversal is the key. -/
theorem indexOf_iff_getElem {lo hi : Option K} {t : CTree K V}
    (hb : boundedB lo hi t = true) (hc : countOk t = true) (k : K) (r : Nat) :
    (indexOf t k = some r ↔ (keysList t)[r]? = some k) := by
  induction t generalizing lo hi r with
  | leaf => simp [indexOf]
  | node rk rv rp l rt c ihl ihr =>
      simp only [boundedB, Bool.and_eq_true] at hb
      obtain ⟨⟨⟨hlo, hhi⟩, hbl⟩, hbr⟩ := hb
      have hmemL : ∀ x ∈ keysList l, x < rk := fun x hx => by
        simpa using (mem_keysList_boundedB hbl x hx).2
      have hmemR : ∀ x ∈ keysList rt, rk < x := fun x hx => by
        simpa using (mem_keysList_boundedB hbr x hx).1
      obtain ⟨hc1, hc2, hc3⟩ := countOk_node hc
      have hlenl : len l = (keysList l).length := by
        rw [len_eq_length_inorder hc1]
        simp [keysList]
      rcases lt_trichotomy k rk with hk | hk | hk
      · have hcmp : compare k rk = Ordering.lt := compare_lt_iff_lt.mpr hk
        simp only [indexOf, hcmp, keysList_node]
        rw [ihl hbl hc1]
        constructor
        · intro h
          have hr : r < (keysList l).length := by
            by_contra hge
            rw [List.getElem?_eq_none_iff.mpr (by omega)] at h
            exact Option.noConfusion h
          rw [List.getElem?_append_left hr]
          exact h
        · intro h
          by_cases hr : r < (keysList l).length
          · rwa [List.getElem?_append_left hr] at h
          · exfalso
            rw [List.getElem?_append_right (by omega)] at h
            have hmem : k ∈ rk :: keysList rt := List.getElem?_mem h
            rcases List.mem_cons.mp hmem with rfl | hmem
            · exact lt_irrefl k hk
            · exact absurd hk (not_lt.mpr (le_of_lt (hmemR k hmem)))
      · have hcmp : compare k rk = Ordering.eq := compare_eq_iff_eq.mpr hk
        subst hk
        simp only [indexOf, hcmp, keysList_node]
        constructor
        · intro h
          have hr : r = len l := by
            injection h with h
            omega
          subst hr
          rw [hlenl, List.getElem?_append_right (le_refl _)]
          simp
        · intro h
          by_cases hr : r < (keysList l).length
          · exfalso
            rw [List.getElem?_append_left hr] at h
            exact lt_irrefl k (hmemL k (List.getElem?_mem h))
          · rw [List.getElem?_append_right (by omega)] at h
            by_cases heq : r = (keysList l).length
            · simp only [Option.some_inj]
              omega
            · exfalso
              have hsub : r - (keysList l).length = (r - (keysList l).length - 1) + 1 := by
                omega
              rw [hsub, List.getElem?_cons_succ] at h
              exact lt_irrefl k (hmemR k (List.getElem?_mem h))
      · have hcmp : compare k rk = Ordering.gt := compare_gt_iff_gt.mpr hk
        simp only [indexOf, hcmp, keysList_node, Option.map_eq_some']
        constructor
        · rintro ⟨i, hi, rfl⟩
          have h := (ihr hbr hc2 i).mp hi
          rw [List.getElem?_append_right (by omega)]
          have hsub : i + 1 + len l - (keysList l).length = i + 1 := by omega
          rw [hsub, List.getElem?_cons_succ]
          exact h
        · intro h
          by_cases hr : r < (keysList l).length
          · exfalso
            rw [List.getElem?_append_left hr] at h
            exact absurd hk (not_lt.mpr (le_of_lt (hmemL k (List.getElem?_mem h))))
          · by_cases heq : r = (keysList l).length
            · exfalso
              rw [List.getElem?_append_right (by omega)] at h
              rw [show r - (keysList l).length = 0 from by omega] at h
              simp only [List.getElem?_cons_zero, Option.some_inj] at h
              exact lt_irrefl k (h ▸ hk)
            · rw [List.getElem?_append_right (by omega)] at h
              have hsub : r - (keysList l).length = (r - (keysList l).length - 1) + 1 := by
                omega
              rw [hsub, List.getElem?_cons_succ] at h
              refine ⟨r - (keysList l).length - 1, (ihr hbr hc2 _).mpr h, by omega⟩

/-- A successful `search` implies the key occurs in the traversal. -/
theorem mem_keysList_of_search {t : CTree K V} {k : K} {v : V} {p : Nat}
    (hs : search t k = some (v, p)) : k ∈ keysList t := by
  induction t with
  | leaf => simp [search] at hs
  | node rk rv rp l r c ihl ihr =>
      rcases lt_trichotomy k rk with hk | hk | hk
      · have hcmp : compare k rk = Ordering.lt := compare_lt_iff_lt.mpr hk
        simp only [search, hcmp] at hs
        simp [ihl hs]
      · subst hk
        simp
      · have hcmp : compare k rk = Ordering.gt := compare_gt_iff_gt.mpr hk
        simp only [search, hcmp] at hs
        simp [ihr hs]

/-- Removing at an out-of-range rank returns `None` and leaves the tree
unchanged. -/
theorem removeByIndex_big {t : CTree K V} {k : Nat} (hc : countOk t = true)
    (hk : len t ≤ k) :
    removeByIndex t k = (t, none) := by
  induction t generalizing k with
  | leaf => simp [removeByIndex]
  | node rk rv rp l r c ihl ihr =>
      obtain ⟨hc1, hc2, hc3⟩ := countOk_node hc
      simp only [len] at hk
      have h1 : ¬ k < len l := by omega
      have h2 : len l < k := by omega
      have hrec : removeByIndex r (k - len l - 1) = (r, none) :=
        @ihr (k - len l - 1) hc2 (by omega)
      simp only [removeByIndex_gt h1 h2, hrec]
      simp [updateCount, ← hc3]

end CTree

/-! ## General lemmas about the `ImplicitTreap` embedding -/

namespace ITree

variable {T : Type}

@[simp] theorem toList_leaf : toList (leaf : ITree T) = [] := rfl

@[simp] theorem toList_node (v : T) (p s : Nat) (l r : ITree T) :
    toList (node v p s l r) = toList l ++ v :: toList r := rfl

@[simp] theorem toList_updateSize (t : ITree T) : toList (updateSize t) = toList t := by
  cases t <;> simp [updateSize]

theorem sizeOk_node {v : T} {p s : Nat} {l r : ITree T}
    (h : sizeOk (node v p s l r) = true) :
    sizeOk l = true ∧ sizeOk r = true ∧ s = size l + 1 + size r := by
  simp only [sizeOk, Bool.and_eq_true, decide_eq_true_eq] at h
  exact ⟨h.1.1, h.1.2, h.2⟩

theorem size_eq_length {t : ITree T} (h : sizeOk t = true) :
    size t = (toList t).length := by
  induction t with
  | leaf => rfl
  | node v p s l r ihl ihr =>
      obtain ⟨hl, hr, hs⟩ := sizeOk_node h
      simp only [size, toList_node, List.length_append, List.length_cons]
      rw [hs, ihl hl, ihr hr]
      omega

theorem sizeOk_updateSize {v : T} {p s : Nat} {l r : ITree T}
    (hl : sizeOk l = true) (hr : sizeOk r = true) :
    sizeOk (updateSize (node v p s l r)) = true := by
  simp [updateSize, sizeOk, hl, hr]

@[simp] theorem merge_leaf_right (t : ITree T) : merge t leaf = t := by
  cases t <;> simp [merge]

theorem toList_merge (l r : ITree T) : toList (merge l r) = toList l ++ toList r := by
  induction l, r using merge.induct with
  | case1 r => simp [merge]
  | case2 lv lp ls ll lr => simp [merge]
  | case3 lv lp ls ll lr rv rp rs rl rr hp ih =>
      simp only [merge, if_pos hp, toList_updateSize, toList_node, ih]
      simp
  | case4 lv lp ls ll lr rv rp rs rl rr hp ih =>
      simp only [merge, if_neg hp, toList_updateSize, toList_node, ih]
      simp

theorem sizeOk_merge {l r : ITree T} (hl : sizeOk l = true) (hr : sizeOk r = true) :
    sizeOk (merge l r) = true := by
  induction l, r using merge.induct with
  | case1 r => simpa [merge] using hr
  | case2 lv lp ls ll lr => simpa [merge] using hl
  | case3 lv lp ls ll lr rv rp rs rl rr hp ih =>
      obtain ⟨hll, hlr, hls⟩ := sizeOk_node hl
      simp only [merge, if_pos hp]
      exact sizeOk_updateSize hll (ih hlr hr)
  | case4 lv lp ls ll lr rv rp rs rl rr hp ih =>
      obtain ⟨hrl, hrr, hrs⟩ := sizeOk_node hr
      simp only [merge, if_neg hp]
      exact sizeOk_updateSize (ih hl hrl) hrr

theorem split_spec {t : ITree T} (hs : sizeOk t = true) :
    ∀ pos add, add ≤ pos + 1 →
      toList (split t pos add).1 = (toList t).take (pos + 1 - add) ∧
      toList (split t pos add).2 = (toList t).drop (pos + 1 - add) ∧
      sizeOk (split t pos add).1 = true ∧ sizeOk (split t pos add).2 = true := by
  induction t with
  | leaf => intro pos add hadd; simp [split, sizeOk]
  | node v p s l r ihl ihr =>
      intro pos add hadd
      obtain ⟨hl, hr, hsz⟩ := sizeOk_node hs
      have hlenl : size l = (toList l).length := size_eq_length hl
      by_cases hcp : size l + add ≤ pos
      · have harg : size l + add + 1 ≤ pos + 1 := by omega
        obtain ⟨ih1, ih2, ih3, ih4⟩ := ihr hr pos (size l + add + 1) harg
        have hn1 : pos + 1 - (size l + add + 1) = pos - size l - add := by omega
        have htake : (toList l ++ v :: toList r).take (pos + 1 - add)
            = toList l ++ v :: (toList r).take (pos - size l - add) := by
          rw [List.take_append_eq_append_take, List.take_all_of_le (by omega)]
          congr 1
          rw [show pos + 1 - add - (toList l).length = (pos - size l - add) + 1 from by omega]
          simp
        have hdrop : (toList l ++ v :: toList r).drop (pos + 1 - add)
            = (toList r).drop (pos - size l - add) := by
          rw [List.drop_append_eq_append_drop, List.drop_eq_nil_of_le (by omega)]
          rw [show pos + 1 - add - (toList l).length = (pos - size l - add) + 1 from by omega]
          rw [List.nil_append, List.drop_succ_cons]
        simp only [split, if_pos hcp]
        refine ⟨?_, ?_, sizeOk_updateSize hl ih3, ih4⟩
        · simp only [toList_updateSize, toList_node, ih1, hn1, htake]
        · simp only [toList_node, ih2, hn1, htake, hdrop]
      · obtain ⟨ih1, ih2, ih3, ih4⟩ := ihl hl pos add hadd
        simp only [split, if_neg hcp]
        refine ⟨?_, ?_, ih3, sizeOk_updateSize ih4 hr⟩
        · rw [ih1, toList_node, List.take_append_of_le_length (by omega)]
        · simp only [toList_updateSize, toList_node, ih2]
          rw [List.drop_append_of_le_length (by omega)]

/-- Splitting past the end of the sequence returns the tree itself,
unchanged, and an empty remainder. -/
theorem split_big {t : ITree T} (hs : sizeOk t = true) :
    ∀ {pos add}, add + (toList t).length ≤ pos + 1 → split t pos add = (t, leaf) := by
  induction t with
  | leaf => intro pos add hbig; simp [split]
  | node v p s l r ihl ihr =>
      intro pos add hbig
      obtain ⟨hl, hr, hsz⟩ := sizeOk_node hs
      have hlenl : size l = (toList l).length := size_eq_length hl
      have hlenr : size r = (toList r).length := size_eq_length hr
      simp only [toList_node, List.length_append, List.length_cons] at hbig
      have hcp : size l + add ≤ pos := by omega
      simp only [split, if_pos hcp]
      rw [ihr hr (by omega)]
      simp [updateSize, ← hsz]

theorem find?_eq_getElem {t : ITree T} (hs : sizeOk t = true) (pos : Nat) :
    find? t (pos + 1) = (toList t)[pos]? := by
  induction t generalizing pos with
  | leaf => simp [find?]
  | node v p s l r ihl ihr =>
      obtain ⟨hl, hr, hsz⟩ := sizeOk_node hs
      have hlenl : size l = (toList l).length := size_eq_length hl
      by_cases h1 : pos + 1 < size l + 1
      · simp only [find?, if_pos h1]
        rw [ihl hl, toList_node, List.getElem?_append_left (by omega)]
      · by_cases h2 : pos + 1 > size l + 1
        · simp only [find?, if_neg h1, if_pos h2]
          have hsub : pos + 1 - (size l + 1) = (pos - size l - 1) + 1 := by omega
          rw [hsub, ihr hr, toList_node, List.getElem?_append_right (by omega)]
          have hsub2 : pos - (toList l).length = (pos - size l - 1) + 1 := by omega
          rw [hsub2, List.getElem?_cons_succ]
        · have hpos : pos = size l := by omega
          simp only [find?, if_neg h1, if_neg h2]
          subst hpos
          rw [toList_node, List.getElem?_append_right (by omega)]
          rw [show size l - (toList l).length = 0 from by omega]
          simp

theorem setValueAt_none {t : ITree T} (hs : sizeOk t = true) :
    ∀ (pos : Nat) (v : T), (toList t).length ≤ pos →
      setValueAt t (pos + 1) v = none := by
  induction t with
  | leaf => intro pos v hge; rfl
  | node w p s l r ihl ihr =>
      intro pos v hge
      obtain ⟨hl, hr, hsz⟩ := sizeOk_node hs
      have hlenl : size l = (toList l).length := size_eq_length hl
      have hlenr : size r = (toList r).length := size_eq_length hr
      simp only [toList_node, List.length_append, List.length_cons] at hge
      have h1 : ¬ pos + 1 < size l + 1 := by omega
      have h2 : pos + 1 > size l + 1 := by omega
      simp only [setValueAt, if_neg h1, if_pos h2]
      have hsub : pos + 1 - (size l + 1) = (pos - size l - 1) + 1 := by omega
      rw [hsub, ihr hr (pos - size l - 1) v (by omega)]
      rfl

theorem setValueAt_some {t : ITree T} (hs : sizeOk t = true) :
    ∀ (pos : Nat) (v : T), pos < (toList t).length →
      ∃ t2, setValueAt t (pos + 1) v = some t2 ∧ toList t2 = (toList t).set pos v := by
  induction t with
  | leaf => intro pos v hlt; simp at hlt
  | node w p s l r ihl ihr =>
      intro pos v hlt
      obtain ⟨hl, hr, hsz⟩ := sizeOk_node hs
      have hlenl : size l = (toList l).length := size_eq_length hl
      by_cases h1 : pos + 1 < size l + 1
      · obtain ⟨t2, ht2, htl⟩ := ihl hl pos v (by omega)
        refine ⟨node w p s t2 r, ?_, ?_⟩
        · simp only [setValueAt, if_pos h1, ht2]
          rfl
        · simp only [toList_node, htl]
          rw [List.set_append_left _ _ (by omega)]
      · by_cases h2 : pos + 1 > size l + 1
        · simp only [toList_node, List.length_append, List.length_cons] at hlt
          obtain ⟨t2, ht2, htl⟩ := ihr hr (pos - size l - 1) v (by omega)
          refine ⟨node w p s l t2, ?_, ?_⟩
          · simp only [setValueAt, if_neg h1, if_pos h2]
            have hsub : pos + 1 - (size l + 1) = (pos - size l - 1) + 1 := by omega
            rw [hsub, ht2]
            rfl
          · simp only [toList_node, htl]
            rw [List.set_append_right _ _ (by omega)]
            congr 1
            have hsub : pos - (toList l).length = (pos - size l - 1) + 1 := by omega
            rw [hsub]
            simp
        · have hpos : pos = size l := by omega
          subst hpos
          refine ⟨node v p s l r, ?_, ?_⟩
          · simp [setValueAt, if_neg h1, if_neg h2]
          · simp only [toList_node]
            rw [List.set_append_right _ _ (by omega)]
            rw [show size l - (toList l).length = 0 from by omega]
            simp

theorem toList_insertIT {t : ITree T} (hs : sizeOk t = true) (pos : Nat) (v : T) (p : Nat) :
    toList (insertIT t pos v p) = (toList t).take pos ++ v :: (toList t).drop pos := by
  by_cases hp : pos = 0
  · subst hp
    simp [insertIT, toList_merge]
  · obtain ⟨h1, h2, h3, h4⟩ := split_spec hs (pos - 1) 0 (by omega)
    simp only [insertIT, if_neg hp, toList_merge, h1, h2]
    have hsub : pos - 1 + 1 - 0 = pos := by omega
    rw [hsub]
    simp

theorem sizeOk_insertIT {t : ITree T} (hs : sizeOk t = true) (pos : Nat) (v : T) (p : Nat) :
    sizeOk (insertIT t pos v p) = true := by
  by_cases hp : pos = 0
  · subst hp
    simp only [insertIT, if_pos rfl]
    exact sizeOk_merge (sizeOk_merge rfl rfl) hs
  · obtain ⟨h1, h2, h3, h4⟩ := split_spec hs (pos - 1) 0 (by omega)
    simp only [insertIT, if_neg hp]
    exact sizeOk_merge (sizeOk_merge h3 rfl) h4

/-- Removing past the end of the sequence returns `None` and leaves the
tree unchanged. -/
theorem removeIT_big {t : ITree T} (hs : sizeOk t = true) {pos : Nat}
    (hge : (toList t).length ≤ pos) :
    removeIT t pos = (t, none) := by
  by_cases hp : pos = 0
  · subst hp
    have ht : t = leaf := by
      cases t with
      | leaf => rfl
      | node v p s l r => simp at hge
    subst ht
    simp [removeIT, split, merge, rootValue]
  · have hfst : split t (pos - 1) 0 = (t, leaf) := split_big hs (by omega)
    simp only [removeIT, if_neg hp, hfst]
    simp only [split, merge_leaf_right]
    rfl

end ITree

/-- Explicit two-element implicit treap `[17, 18]` (priorities 5, 3), with
consistent stored sizes. -/
def exITree : ITree Nat :=
  ITree.node 17 5 2 ITree.leaf (ITree.node 18 3 1 ITree.leaf ITree.leaf)

/-! ## The claims -/

/-- C1: the claim states that after every `insert`, `remove` and
`remove_index` the max-heap property on priorities holds, `remove`
rotating toward the child with the higher priority.  The code violates
this: on the tree with keys 1,3,4 and priorities 2,10,5 (heap-, BST- and
count-consistent), `remove(&3)` meets a node with two children and
`left.priority (2) < right.priority (5)`, calls `rotate_right` — promoting
the LOWER-priority left child — and returns a tree whose root has priority
2 above a child with priority 5 (`heapOk = false`).  Likewise
`remove_index(2)` on keys 1,2,3,4 with priorities 5,1,10,3 removes the
wrong element (rank 2 holds key 3, yet key 2 is returned) and also leaves
`heapOk = false`. -/
theorem claim_C1_heap_violation :
    CTree.heapOk cexTree = true ∧ CTree.countOk cexTree = true ∧
    CTree.bstOk cexTree = true ∧
    (CTree.removeKey cexTree 3).2 = some (0, 10) ∧
    CTree.heapOk (CTree.removeKey cexTree 3).1 = false ∧
    CTree.heapOk cexTree4 = true ∧ CTree.countOk cexTree4 = true ∧
    (CTree.kthLargestOf cexTree4 2).map (fun e => e.1) = some 3 ∧
    (CTree.removeByIndex cexTree4 2).2 = some (2, 20, 1) ∧
    CTree.heapOk (CTree.removeByIndex cexTree4 2).1 = false := by
  refine ⟨by decide, by decide, by decide, ?_, ?_, by decide, by decide, by decide, ?_, ?_⟩ <;>
    simp [cexTree, cexTree4, CTree.removeKey, CTree.removeByIndex, CTree.insertKV,
      CTree.rotateRight, CTree.rotateLeft, CTree.updateCount, CTree.len, CTree.prio,
      CTree.leftChild, CTree.heapOk, CTree.prioLeB,
      LinearOrder.compare_eq_compareOfLessAndEq, compareOfLessAndEq]

/-- C2: inserting an already-present key `k` (stored priority `p`)
overwrites only the stored value: the skeleton of the tree (keys,
priorities, shape, stored counts) is unchanged and a subsequent `get`
returns the new value paired with the ORIGINAL priority `p`, on every
tree satisfying the heap and count invariants. -/
theorem claim_C2_insert_overwrites_value_only {K V : Type} [LinearOrder K]
    (t : CTree K V) (k : K) (v0 : V) (p0 : Nat) (v2 : V) (p2 : Nat)
    (hheap : CTree.heapOk t = true) (hcount : CTree.countOk t = true)
    (hs : CTree.search t k = some (v0, p0)) :
    CTree.stripValues (CTree.insertKV t k v2 p2) = CTree.stripValues t ∧
      CTree.search (CTree.insertKV t k v2 p2) k = some (v2, p0) :=
  CTree.insertKV_found v2 p2 hheap hcount hs

/-- C2 witness: the spec's 8-key example tree contains key 2 with
priority 2; re-inserting key 2 with value 99 and priority 99 leaves the
skeleton unchanged and `get(&2)` reports the original priority 2. -/
theorem claim_C2_witness :
    (CTree.heapOk exTree = true ∧ CTree.countOk exTree = true ∧
      CTree.search exTree 2 = some (1, 2)) ∧
    (CTree.stripValues (CTree.insertKV exTree 2 99 99) = CTree.stripValues exTree ∧
      CTree.search (CTree.insertKV exTree 2 99 99) 2 = some (99, 2)) :=
  ⟨⟨by decide, by decide, by decide⟩,
    claim_C2_insert_overwrites_value_only exTree 2 1 2 99 99 (by decide) (by decide)
      (by decide)⟩

/-- C3: a tree built from `CartesianTree::new()` by any sequence of
inserts (any keys, values and priorities) has strictly increasing keys in
in-order traversal. -/
theorem claim_C3_bst_sorted {K V : Type} [LinearOrder K] (ops : List (K × V × Nat)) :
    List.Sorted (· < ·) (CTree.keysList
      (ops.foldl (fun t x => CTree.insertKV t x.1 x.2.1 x.2.2) CTree.leaf)) := by
  have hb : ∀ (t : CTree K V), CTree.boundedB none none t = true →
      CTree.boundedB none none (ops.foldl (fun t x => CTree.insertKV t x.1 x.2.1 x.2.2) t)
        = true := by
    induction ops with
    | nil => intro t h; simpa using h
    | cons op ops ih =>
        intro t h
        exact ih _ (CTree.boundedB_insertKV h rfl rfl)
  exact CTree.sorted_keysList_of_boundedB (hb CTree.leaf rfl)

/-- C4: after any sequence of public operations (`new`, `insert`,
`remove`, `remove_index`) every node's stored count equals 1 plus the
stored counts of its present children (0 for an absent child), and `len()`
— the root's stored count, or 0 when empty — equals the number of nodes in
the tree. -/
theorem claim_C4_count_consistency {K V : Type} [LinearOrder K]
    (ops : List (CTree.COp K V)) :
    CTree.countOk (CTree.applyCOps ops) = true ∧
      CTree.len (CTree.applyCOps ops) = CTree.nodes (CTree.applyCOps ops) := by
  have hc := CTree.countOk_applyCOps ops
  refine ⟨hc, ?_⟩
  rw [CTree.len_eq_length_inorder hc, CTree.nodes_eq_length_inorder]

/-- C5: rank/select duality on every tree satisfying the BST and count
invariants: a present key `k` (one `get` finds) has a rank `r` with
`index(k) = Some(r)` and `get_index(r)` returns key `k` as its first
component; conversely every rank `r < len()` selects an element whose key
has `index` exactly `r`. -/
theorem claim_C5_rank_select_duality {K V : Type} [LinearOrder K] (t : CTree K V)
    (hb : CTree.bstOk t = true) (hc : CTree.countOk t = true) :
    (∀ k (v : V) p, CTree.search t k = some (v, p) →
      ∃ r, CTree.indexOf t k = some r ∧
        ∃ v1 p1, CTree.kthLargestOf t r = some (k, v1, p1)) ∧
    (∀ r, r < CTree.len t →
      ∃ k v p, CTree.kthLargestOf t r = some (k, v, p) ∧
        CTree.indexOf t k = some r) := by
  constructor
  · intro k v p hsk
    obtain ⟨r, hr⟩ := List.getElem?_of_mem (CTree.mem_keysList_of_search hsk)
    refine ⟨r, (CTree.indexOf_iff_getElem hb hc k r).mpr hr, ?_⟩
    rw [CTree.kthLargestOf_eq_getElem hc]
    simp only [CTree.keysList, List.getElem?_map, Option.map_eq_some'] at hr
    obtain ⟨e, he, hek⟩ := hr
    exact ⟨e.2.1, e.2.2, by rw [he]; rw [show e = (k, e.2.1, e.2.2) from by
      rw [← hek]]⟩
  · intro r hr
    rw [CTree.len_eq_length_inorder hc] at hr
    have he : (CTree.inorder t)[r]? = some ((CTree.inorder t).get ⟨r, hr⟩) := by
      simp
    refine ⟨((CTree.inorder t).get ⟨r, hr⟩).1, ((CTree.inorder t).get ⟨r, hr⟩).2.1,
      ((CTree.inorder t).get ⟨r, hr⟩).2.2, ?_, ?_⟩
    · rw [CTree.kthLargestOf_eq_getElem hc, he]
    · refine (CTree.indexOf_iff_getElem hb hc _ r).mpr ?_
      simp only [CTree.keysList, List.getElem?_map, he]
      rfl

/-- C5 witness: the 8-key example tree satisfies both invariants, so both
dualities hold on it. -/
theorem claim_C5_witness :
    (CTree.bstOk exTree = true ∧ CTree.countOk exTree = true) ∧
    ((∀ k (v : Nat) p, CTree.search exTree k = some (v, p) →
      ∃ r, CTree.indexOf exTree k = some r ∧
        ∃ v1 p1, CTree.kthLargestOf exTree r = some (k, v1, p1)) ∧
    (∀ r, r < CTree.len exTree →
      ∃ k v p, CTree.kthLargestOf exTree r = some (k, v, p) ∧
        CTree.indexOf exTree k = some r)) :=
  ⟨⟨by decide, by decide⟩,
    claim_C5_rank_select_duality exTree (by decide) (by decide)⟩

/-- C6: absence semantics.  On a count-consistent tree, a key that does
not occur makes `get`, `index` and `remove` return `None` with the tree
unchanged; an out-of-range rank makes `get_index` and `remove_index`
return `None` with the tree unchanged; and on a size-consistent
`ImplicitTreap` an out-of-range position makes `remove` return `None`
with the treap unchanged.  None of these paths panics in the model. -/
theorem claim_C6_absence_semantics {K V : Type} [LinearOrder K]
    (t : CTree K V) (k : K) (r : Nat) (ti : ITree V) (pos : Nat)
    (hc : CTree.countOk t = true)
    (habs : k ∉ CTree.keysList t)
    (hr : CTree.len t ≤ r)
    (hsz : ITree.sizeOk ti = true)
    (hpos : ITree.len ti ≤ pos) :
    CTree.search t k = none ∧
    CTree.indexOf t k = none ∧
    CTree.removeKey t k = (t, none) ∧
    CTree.kthLargestOf t r = none ∧
    CTree.removeByIndex t r = (t, none) ∧
    ITree.removeIT ti pos = (ti, none) := by
  have hsearch : CTree.search t k = none := by
    cases hq : CTree.search t k with
    | none => rfl
    | some q =>
        have hq2 : CTree.search t k = some (q.1, q.2) := by rw [hq]
        exact absurd (CTree.mem_keysList_of_search hq2) habs
  have hlen : ITree.len ti = (ITree.toList ti).length := ITree.size_eq_length hsz
  exact ⟨hsearch, CTree.indexOf_eq_none hsearch, CTree.removeKey_absent hc hsearch,
    CTree.kthLargestOf_none hc hr, CTree.removeByIndex_big hc hr,
    ITree.removeIT_big hsz (by omega)⟩

/-- C6 witness: key 11 is absent from the 8-key example tree, rank 8 is
out of range, and position 1138 is out of range for the 2-element treap. -/
theorem claim_C6_witness :
    (CTree.countOk exTree = true ∧ (11 : Nat) ∉ CTree.keysList exTree ∧
      CTree.len exTree ≤ 8 ∧ ITree.sizeOk exITree = true ∧ ITree.len exITree ≤ 1138) ∧
    (CTree.search exTree 11 = none ∧
     CTree.indexOf exTree 11 = none ∧
     CTree.removeKey exTree 11 = (exTree, none) ∧
     CTree.kthLargestOf exTree 8 = none ∧
     CTree.removeByIndex exTree 8 = (exTree, none) ∧
     ITree.removeIT exITree 1138 = (exITree, none)) :=
  ⟨⟨by decide, by decide, by decide, by decide, by decide⟩,
    claim_C6_absence_semantics exTree 11 8 exITree 1138 (by decide) (by decide)
      (by decide) (by decide) (by decide)⟩

/-- C7: the claim states that `pop_back()` and `pop_front()` on the empty
`ImplicitTreap` return `None` without panicking, in particular with no
integer underflow when forming `len() - 1`.  The code's `pop_back` is
`self.remove(self.len() - 1)`, and on the empty treap `len() - 1` IS a
`usize` underflow: a debug build panics (modelled by `popBack = none`),
while `pop_front` (= `remove(0)`) does return `None` and leaves the treap
empty as claimed. -/
theorem claim_C7_pop_back_underflow :
    ITree.popBack (ITree.leaf : ITree Nat) = none ∧
    ITree.popFront (ITree.leaf : ITree Nat) = (ITree.leaf, none) := by
  constructor
  · rfl
  · simp [ITree.popFront, ITree.removeIT, ITree.split, ITree.merge, ITree.rootValue]

/-- C8: for every choice of the four random priorities, the sequence
`insert(0,17); insert(1,18); insert(2,19); insert(1,20)` on an empty
implicit treap yields `len() = 4` and positional reads `[17, 20, 18, 19]`. -/
theorem claim_C8_insert_sequence (p1 p2 p3 p4 : Nat) :
    ITree.len (ITree.insertIT (ITree.insertIT (ITree.insertIT (ITree.insertIT
      (ITree.leaf : ITree Nat) 0 17 p1) 1 18 p2) 2 19 p3) 1 20 p4) = 4 ∧
    ITree.indexGet (ITree.insertIT (ITree.insertIT (ITree.insertIT (ITree.insertIT
      (ITree.leaf : ITree Nat) 0 17 p1) 1 18 p2) 2 19 p3) 1 20 p4) 0 = some 17 ∧
    ITree.indexGet (ITree.insertIT (ITree.insertIT (ITree.insertIT (ITree.insertIT
      (ITree.leaf : ITree Nat) 0 17 p1) 1 18 p2) 2 19 p3) 1 20 p4) 1 = some 20 ∧
    ITree.indexGet (ITree.insertIT (ITree.insertIT (ITree.insertIT (ITree.insertIT
      (ITree.leaf : ITree Nat) 0 17 p1) 1 18 p2) 2 19 p3) 1 20 p4) 2 = some 18 ∧
    ITree.indexGet (ITree.insertIT (ITree.insertIT (ITree.insertIT (ITree.insertIT
      (ITree.leaf : ITree Nat) 0 17 p1) 1 18 p2) 2 19 p3) 1 20 p4) 3 = some 19 := by
  have h0 : ITree.sizeOk (ITree.leaf : ITree Nat) = true := rfl
  have hs1 := ITree.sizeOk_insertIT h0 0 17 p1
  have ht1 : ITree.toList (ITree.insertIT (ITree.leaf : ITree Nat) 0 17 p1) = [17] := by
    rw [ITree.toList_insertIT h0]
    rfl
  have hs2 := ITree.sizeOk_insertIT hs1 1 18 p2
  have ht2 : ITree.toList (ITree.insertIT (ITree.insertIT (ITree.leaf : ITree Nat)
      0 17 p1) 1 18 p2) = [17, 18] := by
    rw [ITree.toList_insertIT hs1, ht1]
    rfl
  have hs3 := ITree.sizeOk_insertIT hs2 2 19 p3
  have ht3 : ITree.toList (ITree.insertIT (ITree.insertIT (ITree.insertIT
      (ITree.leaf : ITree Nat) 0 17 p1) 1 18 p2) 2 19 p3) = [17, 18, 19] := by
    rw [ITree.toList_insertIT hs2, ht2]
    rfl
  have hs4 := ITree.sizeOk_insertIT hs3 1 20 p4
  have ht4 : ITree.toList (ITree.insertIT (ITree.insertIT (ITree.insertIT
      (ITree.insertIT (ITree.leaf : ITree Nat) 0 17 p1) 1 18 p2) 2 19 p3) 1 20 p4)
      = [17, 20, 18, 19] := by
    rw [ITree.toList_insertIT hs3, ht3]
    rfl
  refine ⟨?_, ?_, ?_, ?_, ?_⟩
  · rw [show ITree.len (ITree.insertIT (ITree.insertIT (ITree.insertIT (ITree.insertIT
      (ITree.leaf : ITree Nat) 0 17 p1) 1 18 p2) 2 19 p3) 1 20 p4)
      = (ITree.toList (ITree.insertIT (ITree.insertIT (ITree.insertIT (ITree.insertIT
      (ITree.leaf : ITree Nat) 0 17 p1) 1 18 p2) 2 19 p3) 1 20 p4)).length
      from ITree.size_eq_length hs4, ht4]
    rfl
  all_goals
    simp only [ITree.indexGet]
    rw [ITree.find?_eq_getElem hs4, ht4]
    rfl

/-- C9: split/merge inverse.  On every size-consistent implicit treap
and every position `p`, `split(T, p)` yields a first tree holding exactly
the elements at in-order positions `[0, p]` and a second tree holding the
remainder, and merging the two parts restores the in-order content of `T`. -/
theorem claim_C9_split_merge_inverse {T : Type} (t : ITree T) (p : Nat)
    (hs : ITree.sizeOk t = true) :
    ITree.toList (ITree.split t p 0).1 = (ITree.toList t).take (p + 1) ∧
    ITree.toList (ITree.split t p 0).2 = (ITree.toList t).drop (p + 1) ∧
    ITree.toList (ITree.merge (ITree.split t p 0).1 (ITree.split t p 0).2)
      = ITree.toList t := by
  obtain ⟨h1, h2, h3, h4⟩ := ITree.split_spec hs p 0 (by omega)
  refine ⟨by simpa using h1, by simpa using h2, ?_⟩
  rw [ITree.toList_merge, h1, h2]
  simp

/-- C9 witness: the concrete two-element treap at position 0. -/
theorem claim_C9_witness :
    ITree.sizeOk exITree = true ∧
    (ITree.toList (ITree.split exITree 0 0).1 = (ITree.toList exITree).take 1 ∧
     ITree.toList (ITree.split exITree 0 0).2 = (ITree.toList exITree).drop 1 ∧
     ITree.toList (ITree.merge (ITree.split exITree 0 0).1 (ITree.split exITree 0 0).2)
       = ITree.toList exITree) :=
  ⟨by decide, claim_C9_split_merge_inverse exITree 0 (by decide)⟩

/-- C10: positional indexing.  On every size-consistent implicit treap,
`treap[pos]` reads and `treap[pos] = v` writes the element at 0-based
position `pos` exactly when `pos < len()`, and both panic (modelled as
`none`) exactly when `pos >= len()` — a fatal error rather than a `None`
result. -/
theorem claim_C10_indexing_bounds {T : Type} (t : ITree T) (pos : Nat) (v : T)
    (hs : ITree.sizeOk t = true) :
    ITree.indexGet t pos = (ITree.toList t)[pos]? ∧
    ((ITree.indexGet t pos).isSome = true ↔ pos < ITree.len t) ∧
    (pos < ITree.len t →
      ∃ t2, ITree.indexSet t pos v = some t2 ∧
        ITree.toList t2 = (ITree.toList t).set pos v) ∧
    (ITree.len t ≤ pos → ITree.indexGet t pos = none ∧ ITree.indexSet t pos v = none) := by
  have hlen : ITree.len t = (ITree.toList t).length := ITree.size_eq_length hs
  have hget : ITree.indexGet t pos = (ITree.toList t)[pos]? :=
    ITree.find?_eq_getElem hs pos
  refine ⟨hget, ?_, ?_, ?_⟩
  · rw [hget, hlen]
    constructor
    · intro h
      by_contra hge
      rw [List.getElem?_eq_none_iff.mpr (by omega)] at h
      simp at h
    · intro h
      rw [List.getElem?_eq_getElem h]
      rfl
  · intro hlt
    exact ITree.setValueAt_some hs pos v (by omega)
  · intro hge
    refine ⟨?_, ITree.setValueAt_none hs pos v (by omega)⟩
    rw [hget, List.getElem?_eq_none_iff.mpr (by omega)]

/-- C10 witness: the concrete two-element treap, in-range position 1 and
the same statement's out-of-range clause. -/
theorem claim_C10_witness :
    ITree.sizeOk exITree = true ∧
    (ITree.indexGet exITree 1 = (ITree.toList exITree)[1]? ∧
    ((ITree.indexGet exITree 1).isSome = true ↔ 1 < ITree.len exITree) ∧
    (1 < ITree.len exITree →
      ∃ t2, ITree.indexSet exITree 1 99 = some t2 ∧
        ITree.toList t2 = (ITree.toList exITree).set 1 99) ∧
    (ITree.len exITree ≤ 1 →
      ITree.indexGet exITree 1 = none ∧ ITree.indexSet exITree 1 99 = none)) :=
  ⟨by decide, claim_C10_indexing_bounds exITree 1 99 (by decide)⟩

end UtilityBelt
